import Mathlib

/-
A shallow embedding, in Lean 4, of the discrete-event simulator core
`nmigen/back/pysim.py`.  Python arbitrary-precision integers are modelled
as `ℤ` (with Mathlib's two's-complement bitwise operations `Int.land`,
`Int.lor`, `Int.lnot`, which match Python's semantics on negative numbers);
nonnegative bit masks computed at compile time are modelled as `ℕ`;
floating-point timestamps are modelled as `ℚ` (the properties at issue are
order and addition, on which Python floats agree with the rationals for the
inputs considered).  Python `dict`s (which iterate in insertion order) are
modelled as association lists, Python `set`s as duplicate-free lists.
-/

namespace Pysim

/-! ### Value-compiler helpers (`_ValueCompiler.helpers`, pysim.py lines 352-356)

`"sign": lambda value, sign: value | sign if value & sign else value`
`"zdiv": lambda lhs, rhs: 0 if rhs == 0 else lhs // rhs`
`"zmod": lambda lhs, rhs: 0 if rhs == 0 else lhs % rhs`

Python `//` and `%` are floor division and modulo, i.e. `Int.fdiv`/`Int.fmod`.
-/

def pysign (value sgn : ℤ) : ℤ :=
  if Int.land value sgn ≠ 0 then Int.lor value sgn else value

def zdiv (lhs rhs : ℤ) : ℤ :=
  if rhs = 0 then 0 else Int.fdiv lhs rhs

def zmod (lhs rhs : ℤ) : ℤ :=
  if rhs = 0 then 0 else Int.fmod lhs rhs

/-! ### Operand normalization (`_RHSValueCompiler.on_Operator`, lines 397-407)

`mask(value)` compiles to `value & ((1 << len(value)) - 1)`;
`sign(value)` compiles to `sign(mask(value), -1 << (len(value) - 1))` when the
operand's shape is signed, and to `mask(value)` when it is unsigned.
The compile-time literal `(1 << w) - 1` is `2 ^ w - 1` and
`-1 << (w - 1)` is `-(2 ^ (w - 1))`.
-/

def evalMask (w : ℕ) (v : ℤ) : ℤ :=
  Int.land v ((2 ^ w - 1 : ℕ) : ℤ)

def evalSign (signed : Bool) (w : ℕ) (v : ℤ) : ℤ :=
  if signed then pysign (evalMask w v) (-(2 ^ (w - 1) : ℤ)) else evalMask w v

/-! ### The compiled `//` and `%` operators (`on_Operator`, lines 436-439)

`value.operator == "//"` compiles to `zdiv(sign(lhs), sign(rhs))` and
`value.operator == "%"` compiles to `zmod(sign(lhs), sign(rhs))`, where each
operand is normalized according to its own shape.
-/

def evalFloorDiv (lsg : Bool) (lw : ℕ) (rsg : Bool) (rw : ℕ) (lv rv : ℤ) : ℤ :=
  zdiv (evalSign lsg lw lv) (evalSign rsg rw rv)

def evalFloorMod (lsg : Bool) (lw : ℕ) (rsg : Bool) (rw : ℕ) (lv rv : ℤ) : ℤ :=
  zmod (evalSign lsg lw lv) (evalSign rsg rw rv)

/-! ### Switch-case pattern matching (`_StatementCompiler.on_Switch`, lines 634-655)

For a pattern string containing a don't-care marker `-`:
`mask  = int("".join("0" if b == "-" else "1" for b in pattern), 2)`
`value = int("".join("0" if b == "-" else  b  for b in pattern), 2)`
and the generated check is `(test & mask) == value`; for a pattern without a
marker the check is `test == int(pattern, 2)`.  A pattern is a string over
the characters `0`, `1`, `-`; parsing with `int(_, 2)` is the base-2 fold.
-/

def patMask (p : List Char) : ℕ :=
  p.foldl (fun a c => 2 * a + (if c = '-' then 0 else 1)) 0

def patBits (p : List Char) : ℕ :=
  p.foldl (fun a c => 2 * a + (if c = '1' then 1 else 0)) 0

def patternMatches (test : ℕ) (p : List Char) : Bool :=
  if p.contains '-' then (test &&& patMask p) == patBits p else test == patBits p

/-! ### The signal store (`_SignalState`, lines 183-216, and the store part of
`_SimulatorState`, lines 219-268)

A `Slot` is the simulation state of one signal: its reset value, committed
`curr` value, pending `next` value, and its waiter dictionary mapping a
process (identified by an ordinal, as processes are identity-keyed in
Python) to an optional trigger value.  The engine holds the slot list, the
pending set (a duplicate-free list of slot indices; Python uses a `set` of
slot objects) and the process list with their `runnable`/`passive` flags.
The waveform writer is out of scope and omitted.
-/

structure Slot where
  resetVal : ℤ
  curr : ℤ
  next : ℤ
  waiters : List (ℕ × Option ℤ)
deriving Repr, DecidableEq

def defaultSlot : Slot := ⟨0, 0, 0, []⟩

structure Proc where
  runnable : Bool
  passive : Bool
deriving Repr, DecidableEq

structure Engine where
  slots : List Slot
  pending : List ℕ
  procs : List Proc
deriving Repr, DecidableEq

def slotAt (e : Engine) (i : ℕ) : Slot := (e.slots[i]?).getD defaultSlot

def procAt (e : Engine) (i : ℕ) : Proc := (e.procs[i]?).getD ⟨false, false⟩

/-- `_SignalState.set` (lines 195-199): `if self.next == value: return;
self.next = value; self.pending.add(self)`. -/
def storeSet (e : Engine) (i : ℕ) (v : ℤ) : Engine :=
  if (slotAt e i).next = v then e
  else { e with
    slots := e.slots.set i { slotAt e i with next := v },
    pending := if i ∈ e.pending then e.pending else i :: e.pending }

/-- `_SignalState.commit` (lines 205-209): `if self.curr == self.next:
return False; self.curr = self.next; return True`. -/
def slotCommit (s : Slot) : Slot × Bool :=
  if s.curr = s.next then (s, false) else ({ s with curr := s.next }, true)

def setRunnable (procs : List Proc) (p : ℕ) : List Proc :=
  procs.set p { (procs[p]?).getD ⟨false, false⟩ with runnable := true }

/-- The loop of `_SignalState.wakeup` (lines 211-216): for each registered
waiter, if its trigger is `None` or equals the (new) `curr` value, mark the
process runnable and record that something was awoken. -/
def wakeupLoop (s : Slot) : List (ℕ × Option ℤ) → List Proc → Bool → List Proc × Bool
  | [], procs, aw => (procs, aw)
  | w :: rest, procs, aw =>
    if w.2 = none ∨ w.2 = some s.curr then wakeupLoop s rest (setRunnable procs w.1) true
    else wakeupLoop s rest procs aw

def slotWakeup (procs : List Proc) (s : Slot) : List Proc × Bool :=
  wakeupLoop s s.waiters procs false

/-- Whether `_SignalState.wakeup` would report something awoken for the slot
`s`: some registered waiter has no trigger or a trigger equal to `s.curr`. -/
def slotWakes (s : Slot) : Bool :=
  s.waiters.any fun w => decide (w.2 = none ∨ w.2 = some s.curr)

/-- The loop of `_SimulatorState.commit` (lines 258-268): for each pending
slot, if its per-slot commit reports a change, wake its matching waiters and
fold the awoken flag.  (The waveform-writer update on lines 264-266 is out of
scope.) -/
def commitLoop : List ℕ → List Slot → List Proc → Bool → List Slot × List Proc × Bool
  | [], slots, procs, aw => (slots, procs, aw)
  | i :: rest, slots, procs, aw =>
    let s := (slots[i]?).getD defaultSlot
    let r := slotCommit s
    if r.2 then
      let pw := slotWakeup procs r.1
      commitLoop rest (slots.set i r.1) pw.1 (aw || pw.2)
    else
      commitLoop rest slots procs aw

/-- `_SimulatorState.commit` (lines 258-268): run the loop over the pending
set, clear the pending set, and return whether any waiter was awoken. -/
def engineCommit (e : Engine) : Engine × Bool :=
  let r := commitLoop e.pending e.slots e.procs false
  (⟨r.1, [], r.2.1⟩, r.2.2)

/-- Slot creation (`_SignalState.__init__`/`reset`, lines 186-193, via
`_SimulatorState.get_signal`, lines 238-245): a fresh slot is appended with
`curr = next = signal.reset` and an empty waiter dictionary. -/
def newSlot (e : Engine) (r : ℤ) : Engine :=
  { e with slots := e.slots ++ [⟨r, r, r, []⟩] }

/-- The store part of `_SimulatorState.reset` (lines 230-236): every slot is
restored to `curr = next = signal.reset` and the pending set is cleared;
waiter registrations are untouched. -/
def storeReset (e : Engine) : Engine :=
  { e with
    slots := e.slots.map fun s => { s with curr := s.resetVal, next := s.resetVal },
    pending := [] }

/-- Replacing a slot's waiter dictionary: covers waiter registration
(`_SignalState.wait`, `get_in_signal`) and deregistration (the wait-clearing
prologue of `_CoroutineProcess.run`), neither of which touches `curr`,
`next` or the pending set. -/
def setWaiters (e : Engine) (i : ℕ) (ws : List (ℕ × Option ℤ)) : Engine :=
  { e with slots := e.slots.set i { slotAt e i with waiters := ws } }

/-- Replacing the process list: covers every mutation of `runnable`/`passive`
flags and process registration, none of which touches the store. -/
def setProcs (e : Engine) (ps : List Proc) : Engine :=
  { e with procs := ps }

/-- The store states reachable between operations: starting from the empty
store, by slot creation, writes (`set`), commits, resets, waiter-dictionary
changes and process-list changes — the complete set of mutations the source
performs on `_SimulatorState` fields. -/
inductive Reach : Engine → Prop
  | init : Reach ⟨[], [], []⟩
  | newSlot {e} (r : ℤ) : Reach e → Reach (newSlot e r)
  | set {e} (i : ℕ) (v : ℤ) : Reach e → Reach (storeSet e i v)
  | commit {e} : Reach e → Reach (engineCommit e).1
  | reset {e} : Reach e → Reach (storeReset e)
  | waiters {e} (i : ℕ) (ws : List (ℕ × Option ℤ)) : Reach e → Reach (setWaiters e i ws)
  | procs {e} (ps : List Proc) : Reach e → Reach (setProcs e ps)

/-- The store invariant: the pending set is duplicate-free (it is a Python
`set`), and a slot that is not pending agrees between `curr` and `next`. -/
def EngInv (e : Engine) : Prop :=
  e.pending.Nodup ∧ ∀ i, i ∉ e.pending → (slotAt e i).curr = (slotAt e i).next

/-! ### The delta cycle (`Simulator._delta`, lines 1018-1030)

`for process in self._processes: if process.runnable: process.runnable =
False; process.run()` and then `return self._state.commit()`.  The effect of
`process.run()` on the shared state is arbitrary (compiled update routine or
testbench coroutine); it is supplied as a state transformer indexed by the
process ordinal. -/

def runPhaseLoop (run : ℕ → Engine → Engine) : List ℕ → Engine → Engine
  | [], e => e
  | i :: rest, e =>
    if (procAt e i).runnable then
      runPhaseLoop run rest
        (run i { e with procs := e.procs.set i { procAt e i with runnable := false } })
    else runPhaseLoop run rest e

def runPhase (run : ℕ → Engine → Engine) (e : Engine) : Engine :=
  runPhaseLoop run (List.range e.procs.length) e

def delta (run : ℕ → Engine → Engine) (e : Engine) : Engine × Bool :=
  engineCommit (runPhase run e)

/-- A concrete `process.run()` effect: a testbench process that writes the
value 1 to slot 0 (a statement command executing `slots[0].set(1)`). -/
def writeOneRun : ℕ → Engine → Engine := fun _ e => storeSet e 0 1

/-! ### Logical time and deadlines (`_SimulatorState.advance`, lines 270-295)

The deadline map `process -> optional timestamp` is a Python dict, modelled
as an insertion-ordered association list with unique keys; processes are
identified by ordinals.  Timestamps are Python floats, modelled as `ℚ`. -/

structure TimeState where
  timestamp : ℚ
  deadlines : List (ℕ × Option ℚ)
deriving Repr, DecidableEq

/-- The loop of `advance` (lines 273-285), with accumulator
`nearest_processes` (kept in the order processes were added) and
`nearest_deadline`.  A deadline of `None` clears the accumulated processes
when a nearest deadline was already found, adds the process, sets the
nearest deadline to the current time, and breaks out of the loop.  A
concrete deadline is considered when it is at most the nearest found so far;
the `assert deadline >= self.timestamp` is modelled by returning `none`
(an `AssertionError`) when it fails; a strictly smaller deadline clears the
accumulated processes before the process is added. -/
def advanceLoop (now : ℚ) : List (ℕ × Option ℚ) → List ℕ → Option ℚ → Option (List ℕ × Option ℚ)
  | [], ps, nd => some (ps, nd)
  | (p, none) :: _, ps, nd =>
    some ((if nd.isSome then ([] : List ℕ) else ps) ++ [p], some now)
  | (p, some d) :: rest, ps, nd =>
    match nd with
    | none => if now ≤ d then advanceLoop now rest (ps ++ [p]) (some d) else none
    | some nda =>
      if d ≤ nda then
        if now ≤ d then advanceLoop now rest ((if d < nda then ([] : List ℕ) else ps) ++ [p]) (some d)
        else none
      else advanceLoop now rest ps (some nda)

/-- `_SimulatorState.advance` (lines 270-295): run the loop; if no process
was selected return false; otherwise mark every selected process runnable
(returned here as the list of woken process ordinals), delete each from the
deadline map, set the timestamp to the nearest deadline, and return true. -/
def advance (s : TimeState) : Option (TimeState × List ℕ × Bool) :=
  match advanceLoop s.timestamp s.deadlines [] none with
  | none => none
  | some (ps, nd) =>
    if ps.isEmpty then some (s, [], false)
    else some (⟨nd.getD s.timestamp, s.deadlines.filter fun e => !ps.contains e.1⟩, ps, true)

/-! ### Deadline registration (`_CoroutineProcess.run`, lines 865-874, and
`_SimulatorState.reset`/slot bookkeeping)

`Settle` executes `self.state.deadlines[self] = None`; `Delay(interval)`
executes `self.state.deadlines[self] = None` when the interval is `None` and
`self.state.deadlines[self] = self.state.timestamp + command.interval`
otherwise.  Python dict assignment keeps an existing key at its insertion
position, else appends. -/

def dictSet (ds : List (ℕ × Option ℚ)) (p : ℕ) (v : Option ℚ) : List (ℕ × Option ℚ) :=
  if ds.any fun e => e.1 == p then ds.map fun e => if e.1 == p then (p, v) else e
  else ds ++ [(p, v)]

/-- The timestamp/deadline states reachable by the engine, as the claim
quantifies them: from the initial state, by a coroutine yielding `Settle`,
a coroutine yielding `Delay` with an ARBITRARY interval (as the claim
demands), a successful `advance`, or a `reset`. -/
inductive TReach : TimeState → Prop
  | init : TReach ⟨0, []⟩
  | settle {s} (p : ℕ) : TReach s → TReach ⟨s.timestamp, dictSet s.deadlines p none⟩
  | delay {s} (p : ℕ) (i : ℚ) :
      TReach s → TReach ⟨s.timestamp, dictSet s.deadlines p (some (s.timestamp + i))⟩
  | advanceStep {s s2 w b} : TReach s → advance s = some (s2, w, b) → TReach s2
  | reset {s} : TReach s → TReach ⟨0, []⟩

/-- The timestamp/deadline states reachable when every `Delay` interval is
nonnegative (the amended claim). -/
inductive TReachNN : TimeState → Prop
  | init : TReachNN ⟨0, []⟩
  | settle {s} (p : ℕ) : TReachNN s → TReachNN ⟨s.timestamp, dictSet s.deadlines p none⟩
  | delay {s} (p : ℕ) (i : ℚ) (hnn : 0 ≤ i) :
      TReachNN s → TReachNN ⟨s.timestamp, dictSet s.deadlines p (some (s.timestamp + i))⟩
  | advanceStep {s s2 w b} : TReachNN s → advance s = some (s2, w, b) → TReachNN s2
  | reset {s} : TReachNN s → TReachNN ⟨0, []⟩

/-! ### Simulator reset and coroutine waiter registration
(`Simulator.reset`, lines 1009-1016; `_SimulatorState.reset`, lines 230-236;
`_CoroutineProcess.reset`, lines 795-804; `_CoroutineProcess.get_in_signal`,
lines 817-822) -/

structure CoProc where
  runnable : Bool
  passive : Bool
  waitsOn : List ℕ
deriving Repr, DecidableEq

structure Sim where
  slots : List Slot
  pending : List ℕ
  timestamp : ℚ
  deadlines : List (ℕ × Option ℚ)
  procs : List CoProc
deriving Repr, DecidableEq

def coprocAt (s : Sim) (p : ℕ) : CoProc := (s.procs[p]?).getD ⟨false, false, []⟩

/-- `_CoroutineProcess.reset` (lines 795-804): `self.runnable = True;
self.passive = False; self.coroutine = self.constructor(); ...;
self.waits_on = set()`.  The process's `waits_on` set is replaced with a
fresh empty set, but the slots' waiter dictionaries are NOT touched. -/
def coprocReset (_p : CoProc) : CoProc := ⟨true, false, []⟩

/-- `Simulator.reset` (lines 1009-1016): `self._state.reset()` — every slot
back to `curr = next = signal.reset`, pending set, timestamp and deadline
map cleared (`_SimulatorState.reset`, lines 230-236, which does not touch
waiter dictionaries) — followed by `process.reset()` for every process. -/
def simReset (s : Sim) : Sim :=
  { slots := s.slots.map fun sl => { sl with curr := sl.resetVal, next := sl.resetVal },
    pending := [],
    timestamp := 0,
    deadlines := [],
    procs := s.procs.map coprocReset }

/-- `_CoroutineProcess.get_in_signal` (lines 817-822):
`assert self not in signal_state.waiters` (modelled as `none` on assertion
failure), then `signal_state.waiters[self] = trigger` and
`self.waits_on.add(signal_state)`. -/
def getInSignal (s : Sim) (pid i : ℕ) (trigger : Option ℤ) : Option Sim :=
  let sl := (s.slots[i]?).getD defaultSlot
  if sl.waiters.any fun w => w.1 == pid then none
  else some { s with
    slots := s.slots.set i { sl with waiters := sl.waiters ++ [(pid, trigger)] },
    procs := s.procs.set pid
      { coprocAt s pid with waitsOn := (coprocAt s pid).waitsOn ++ [i] } }

/-! ### The coroutine command protocol (`_CoroutineProcess.run`, lines
824-898)

The dispatch of one yielded command.  A yielded `None` is replaced by the
process's registration-time default command (lines 837-838).  Commands that
raise inside the `try` body produce an `Except.error`; the `except
Exception as exn: self.coroutine.throw(exn)` handler (lines 897-898)
re-raises such an exception INSIDE the testbench body, at its suspension
point. -/

structure DomainInfo where
  clk : ℕ
  clkEdgePos : Bool
  rst : Option ℕ
  asyncReset : Bool
deriving Repr, DecidableEq

inductive TickDomain where
  | byName (name : String)
  | byObj (d : DomainInfo)
deriving Repr, DecidableEq

inductive SimCommand where
  | value
  | statement
  | tick (domain : TickDomain)
  | settle
  | delay (interval : Option ℚ)
  | passive
  | active
  | unsupported
deriving Repr, DecidableEq

inductive SimError where
  | nameError (domain : String)
  | typeErrorDefault
  | typeErrorUnsupported
deriving Repr, DecidableEq

inductive SuspendAction where
  | resumeValue
  | resumeStatement
  | waitTick (clk : ℕ) (trigger : ℤ) (rstReg : Option ℕ)
  | sleep (deadline : Option ℚ)
  | setPassive (b : Bool)
deriving Repr, DecidableEq

/-- The registration performed by the `Tick` branch (lines 850-863): wait on
the domain clock at its active-edge trigger and, when the domain has an
asynchronous reset, also on the reset signal (at trigger 1). -/
def tickAction (d : DomainInfo) : SuspendAction :=
  .waitTick d.clk (if d.clkEdgePos then 1 else 0)
    (match d.rst with
     | some r => if d.asyncReset then some r else none
     | none => none)

/-- `if command is None: command = self.default_cmd` (lines 837-838). -/
def effectiveCommand (yielded defaultCmd : Option SimCommand) : Option SimCommand :=
  match yielded with
  | none => defaultCmd
  | some c => some c

/-- The `if/elif` dispatch chain inside the `try` of `run` (lines 841-890):
`.error` models a `raise`.  A `Tick` naming a domain absent from
`self.domains` raises `NameError` (lines 856-859); a remaining `None`
command raises the add-process `TypeError` (lines 882-886); any other object
raises the unsupported-command `TypeError` (lines 888-890). -/
def dispatchCommand (domains : List (String × DomainInfo)) (now : ℚ) :
    Option SimCommand → Except SimError SuspendAction
  | some .value => .ok .resumeValue
  | some .statement => .ok .resumeStatement
  | some (.tick (.byObj d)) => .ok (tickAction d)
  | some (.tick (.byName n)) =>
    match domains.find? fun e => e.1 == n with
    | some e => .ok (tickAction e.2)
    | none => .error (.nameError n)
  | some .settle => .ok (.sleep none)
  | some (.delay none) => .ok (.sleep none)
  | some (.delay (some i)) => .ok (.sleep (some (now + i)))
  | some .passive => .ok (.setPassive true)
  | some .active => .ok (.setPassive false)
  | some .unsupported => .error .typeErrorUnsupported
  | none => .error .typeErrorDefault

inductive StepResult where
  | act (a : SuspendAction)
  | thrownIntoCoroutine (e : SimError)
deriving Repr, DecidableEq

/-- One command-handling step of `_CoroutineProcess.run`: dispatch the
effective command; an exception raised in the `try` body is caught by the
`except Exception` handler and thrown into the coroutine at its suspension
point (`self.coroutine.throw(exn)`, line 898), not propagated directly. -/
def runStep (domains : List (String × DomainInfo)) (now : ℚ)
    (yielded defaultCmd : Option SimCommand) : StepResult :=
  match dispatchCommand domains now (effectiveCommand yielded defaultCmd) with
  | .ok a => .act a
  | .error e => .thrownIntoCoroutine e

/-! ### Partial assignment through a bit slice (`_LHSValueCompiler.on_Slice`,
lines 559-565, `on_Signal`, lines 543-554, `_StatementCompiler.compile`,
lines 666-676)

For `Assign(sig[start:stop], arg)` on an unsigned signal `sig` of width `w`,
the generated statement body is
`next_i = slots[i].next` (the seeding emitted by `compile`, line 671), then
`next_i = (next_i & ~(width_mask << start) | ((arg & width_mask) << start))
& value_mask` (`on_Slice`'s read-modify-write against the "next"-mode read,
wrapped by `on_Signal`'s unsigned masking), then `slots[i].set(next_i)`
(line 675), with the compile-time literals
`width_mask = (1 << (stop - start)) - 1 = 2 ^ (stop - start) - 1` and
`value_mask = (1 << w) - 1 = 2 ^ w - 1`. -/

def sliceRMW (start stop : ℕ) (lrhs arg : ℤ) : ℤ :=
  Int.lor
    (Int.land lrhs (Int.lnot (((2 ^ (stop - start) - 1 : ℕ) : ℤ) <<< (start : ℤ))))
    ((Int.land arg ((2 ^ (stop - start) - 1 : ℕ) : ℤ)) <<< (start : ℤ))

def signalSetUnsigned (w : ℕ) (arg : ℤ) : ℤ :=
  Int.land arg ((2 ^ w - 1 : ℕ) : ℤ)

def sliceAssignNext (w start stop : ℕ) (next arg : ℤ) : ℤ :=
  signalSetUnsigned w (sliceRMW start stop next arg)

theorem zero_land (s : ℤ) : Int.land 0 s = 0 := by
  cases s with
  | ofNat n =>
    show Int.ofNat (0 &&& n) = 0
    simp
  | negSucc n =>
    show Int.ofNat (Nat.ldiff 0 n) = 0
    have h : Nat.ldiff 0 n = 0 :=
      Nat.eq_of_testBit_eq fun i => by simp [Nat.testBit_ldiff]
    simp [h]

theorem pysign_zero (s : ℤ) : pysign 0 s = 0 := by
  simp [pysign, zero_land]

theorem evalSign_of_mask_zero (sg : Bool) (w : ℕ) (v : ℤ) (h : evalMask w v = 0) :
    evalSign sg w v = 0 := by
  cases sg <;> simp [evalSign, h, pysign_zero]

theorem list_any_congr {α : Type} {l : List α} {f g : α → Bool}
    (h : ∀ x ∈ l, f x = g x) : l.any f = l.any g := by
  induction l with
  | nil => rfl
  | cons a t ih =>
    simp only [List.any_cons, h a (List.mem_cons_self a t),
      ih fun x hx => h x (List.mem_cons_of_mem a hx)]

theorem wakeupLoop_snd (s : Slot) :
    ∀ (ws : List (ℕ × Option ℤ)) (procs : List Proc) (aw : Bool),
      (wakeupLoop s ws procs aw).2 =
        (aw || ws.any fun w => decide (w.2 = none ∨ w.2 = some s.curr)) := by
  intro ws
  induction ws with
  | nil => intro procs aw; simp [wakeupLoop]
  | cons w rest ih =>
    intro procs aw
    by_cases h : w.2 = none ∨ w.2 = some s.curr
    · simp [wakeupLoop, h, ih]
    · push_neg at h
      simp [wakeupLoop, h.1, h.2, ih]

theorem slotWakeup_snd (procs : List Proc) (s : Slot) :
    (slotWakeup procs s).2 = slotWakes s := by
  simp [slotWakeup, slotWakes, wakeupLoop_snd]

theorem slotCommit_false {s : Slot} (h : (slotCommit s).2 = false) : (slotCommit s).1 = s := by
  by_cases hc : s.curr = s.next
  · simp [slotCommit, hc]
  · simp [slotCommit, hc] at h

theorem slotCommit_default : slotCommit defaultSlot = (defaultSlot, false) := by
  simp [slotCommit, defaultSlot]

theorem commitLoop_snd :
    ∀ (l : List ℕ) (slots : List Slot) (procs : List Proc) (aw : Bool), l.Nodup →
      (commitLoop l slots procs aw).2.2 =
        (aw || l.any fun i =>
          (slotCommit ((slots[i]?).getD defaultSlot)).2 &&
            slotWakes (slotCommit ((slots[i]?).getD defaultSlot)).1) := by
  intro l
  induction l with
  | nil => intro slots procs aw _; simp [commitLoop]
  | cons i rest ih =>
    intro slots procs aw hnd
    have hi : i ∉ rest := (List.nodup_cons.mp hnd).1
    have hr : rest.Nodup := (List.nodup_cons.mp hnd).2
    by_cases hch : (slotCommit ((slots[i]?).getD defaultSlot)).2 = true
    · have hstep : commitLoop (i :: rest) slots procs aw =
          commitLoop rest (slots.set i (slotCommit ((slots[i]?).getD defaultSlot)).1)
            (slotWakeup procs (slotCommit ((slots[i]?).getD defaultSlot)).1).1
            (aw || (slotWakeup procs (slotCommit ((slots[i]?).getD defaultSlot)).1).2) := by
        simp [commitLoop, hch]
      rw [hstep, ih _ _ _ hr]
      have hrest : ∀ j ∈ rest,
          ((slots.set i (slotCommit ((slots[i]?).getD defaultSlot)).1)[j]?).getD defaultSlot =
            ((slots[j]?).getD defaultSlot) := by
        intro j hj
        have : i ≠ j := fun h => hi (h ▸ hj)
        rw [List.getElem?_set_ne this]
      rw [list_any_congr fun j hj => by rw [hrest j hj]]
      simp [slotWakeup_snd, List.any_cons, hch, Bool.or_assoc]
    · have hch2 : (slotCommit ((slots[i]?).getD defaultSlot)).2 = false :=
        Bool.eq_false_iff.mpr hch
      have hstep : commitLoop (i :: rest) slots procs aw = commitLoop rest slots procs aw := by
        simp [commitLoop, hch2]
      rw [hstep, ih _ _ _ hr]
      simp [List.any_cons, hch2]

theorem commitLoop_fst :
    ∀ (l : List ℕ) (slots : List Slot) (procs : List Proc) (aw : Bool), l.Nodup → ∀ j : ℕ,
      (((commitLoop l slots procs aw).1)[j]?).getD defaultSlot =
        if j ∈ l then (slotCommit ((slots[j]?).getD defaultSlot)).1
        else (slots[j]?).getD defaultSlot := by
  intro l
  induction l with
  | nil => intro slots procs aw _ j; simp [commitLoop]
  | cons i rest ih =>
    intro slots procs aw hnd j
    have hi : i ∉ rest := (List.nodup_cons.mp hnd).1
    have hr : rest.Nodup := (List.nodup_cons.mp hnd).2
    by_cases hch : (slotCommit ((slots[i]?).getD defaultSlot)).2 = true
    · have hlen : i < slots.length := by
        by_contra hge
        have hnone : slots[i]? = none := by
          simp [List.getElem?_eq_none_iff]
          omega
        rw [hnone] at hch
        simp [slotCommit_default] at hch
      have hstep : commitLoop (i :: rest) slots procs aw =
          commitLoop rest (slots.set i (slotCommit ((slots[i]?).getD defaultSlot)).1)
            (slotWakeup procs (slotCommit ((slots[i]?).getD defaultSlot)).1).1
            (aw || (slotWakeup procs (slotCommit ((slots[i]?).getD defaultSlot)).1).2) := by
        simp [commitLoop, hch]
      rw [hstep, ih _ _ _ hr j]
      by_cases hji : j = i
      · subst hji
        have hjr : j ∉ rest := hi
        simp only [hjr, if_false, List.mem_cons, true_or, if_true, eq_self_iff_true]
        rw [List.getElem?_set_self hlen]
        simp
      · have hne : i ≠ j := fun h => hji h.symm
        rw [List.getElem?_set_ne hne]
        by_cases hjr : j ∈ rest
        · simp [hjr, List.mem_cons, hji]
        · simp [hjr, List.mem_cons, hji]
    · have hch2 : (slotCommit ((slots[i]?).getD defaultSlot)).2 = false :=
        Bool.eq_false_iff.mpr hch
      have hstep : commitLoop (i :: rest) slots procs aw = commitLoop rest slots procs aw := by
        simp [commitLoop, hch2]
      rw [hstep, ih _ _ _ hr j]
      by_cases hji : j = i
      · subst hji
        have hjr : j ∉ rest := hi
        simp [hjr, slotCommit_false hch2]
      · by_cases hjr : j ∈ rest
        · simp [hjr, List.mem_cons, hji]
        · simp [hjr, List.mem_cons, hji]

theorem reach_inv {e : Engine} (h : Reach e) : EngInv e := by
  induction h with
  | init =>
    exact ⟨List.nodup_nil, fun i _ => rfl⟩
  | newSlot r _ ih =>
    rename_i e _
    refine ⟨ih.1, fun i hi => ?_⟩
    by_cases hlt : i < e.slots.length
    · have : (Pysim.newSlot e r).slots[i]? = e.slots[i]? := by
        simp [Pysim.newSlot]
        rw [List.getElem?_append_left hlt]
      simpa [slotAt, this] using ih.2 i hi
    · by_cases heq : i = e.slots.length
      · have : (Pysim.newSlot e r).slots[i]? = some ⟨r, r, r, []⟩ := by
          show (e.slots ++ [(⟨r, r, r, []⟩ : Slot)])[i]? = _
          rw [heq]
          exact List.getElem?_concat_length _ _
        simp [slotAt, this]
      · have hge : e.slots.length + 1 ≤ i := by omega
        have : (Pysim.newSlot e r).slots[i]? = none := by
          simp [Pysim.newSlot, List.getElem?_eq_none_iff]
          omega
        simp [slotAt, this, defaultSlot]
  | set i v _ ih =>
    rename_i e _
    by_cases hnv : (slotAt e i).next = v
    · simpa [storeSet, hnv] using ih
    · by_cases hip : i ∈ e.pending
      · refine ⟨by simpa [storeSet, hnv, hip] using ih.1, fun j hj => ?_⟩
        have hjp : j ∉ e.pending := by simpa [storeSet, hnv, hip] using hj
        have hji : i ≠ j := fun h => hjp (h ▸ hip)
        have : (storeSet e i v).slots[j]? = e.slots[j]? := by
          simp [storeSet, hnv]
          rw [List.getElem?_set_ne hji]
        simpa [slotAt, this] using ih.2 j hjp
      · refine ⟨?_, fun j hj => ?_⟩
        · simp only [storeSet, hnv, if_false, hip]
          exact List.nodup_cons.mpr ⟨hip, ih.1⟩
        · have hj2 : j ∉ i :: e.pending := by simpa [storeSet, hnv, hip] using hj
          have hji : i ≠ j := fun h => hj2 (h ▸ List.mem_cons_self i e.pending)
          have hjp : j ∉ e.pending := fun m => hj2 (List.mem_cons_of_mem i m)
          have : (storeSet e i v).slots[j]? = e.slots[j]? := by
            simp [storeSet, hnv]
            rw [List.getElem?_set_ne hji]
          simpa [slotAt, this] using ih.2 j hjp
  | commit _ ih =>
    rename_i e _
    refine ⟨List.nodup_nil, fun j _ => ?_⟩
    have hfst := commitLoop_fst e.pending e.slots e.procs false ih.1 j
    have hslot : slotAt (engineCommit e).1 j =
        (((commitLoop e.pending e.slots e.procs false).1)[j]?).getD defaultSlot := rfl
    rw [hslot, hfst]
    by_cases hjp : j ∈ e.pending
    · simp only [hjp, if_true]
      by_cases hc : ((e.slots[j]?).getD defaultSlot).curr = ((e.slots[j]?).getD defaultSlot).next
      · simp [slotCommit, hc]
      · simp [slotCommit, hc]
    · simp only [hjp, if_false]
      exact ih.2 j hjp
  | reset _ ih =>
    rename_i e _
    refine ⟨List.nodup_nil, fun j _ => ?_⟩
    have hmap : (storeReset e).slots[j]? =
        (e.slots[j]?).map fun s => { s with curr := s.resetVal, next := s.resetVal } := by
      simp [storeReset]
    cases hv : e.slots[j]? with
    | none => simp [slotAt, hmap, hv, defaultSlot]
    | some s => simp [slotAt, hmap, hv]
  | waiters i ws _ ih =>
    rename_i e _
    refine ⟨ih.1, fun j hj => ?_⟩
    have hjp : j ∉ e.pending := hj
    by_cases hji : i = j
    · subst hji
      by_cases hlt : i < e.slots.length
      · have : (setWaiters e i ws).slots[i]? = some { slotAt e i with waiters := ws } := by
          simp [setWaiters]
          exact List.getElem?_set_self hlt
        simpa [slotAt, this] using ih.2 i hjp
      · have : (setWaiters e i ws).slots[i]? = none := by
          simp [setWaiters, List.getElem?_eq_none_iff]
          omega
        simp [slotAt, this, defaultSlot]
    · have : (setWaiters e i ws).slots[j]? = e.slots[j]? := by
        simp [setWaiters]
        rw [List.getElem?_set_ne hji]
      simpa [slotAt, this] using ih.2 j hjp
  | procs ps _ ih =>
    exact ⟨ih.1, fun j hj => ih.2 j hj⟩

theorem engineCommit_post {e : Engine} (hinv : EngInv e) (j : ℕ) :
    (slotAt (engineCommit e).1 j).curr = (slotAt (engineCommit e).1 j).next := by
  have hfst := commitLoop_fst e.pending e.slots e.procs false hinv.1 j
  have hslot : slotAt (engineCommit e).1 j =
      (((commitLoop e.pending e.slots e.procs false).1)[j]?).getD defaultSlot := rfl
  rw [hslot, hfst]
  by_cases hjp : j ∈ e.pending
  · simp only [hjp, if_true]
    by_cases hc : ((e.slots[j]?).getD defaultSlot).curr = ((e.slots[j]?).getD defaultSlot).next
    · simp [slotCommit, hc]
    · simp [slotCommit, hc]
  · simp only [hjp, if_false]
    exact hinv.2 j hjp

theorem engineCommit_snd {e : Engine} (hnd : e.pending.Nodup) :
    (engineCommit e).2 = e.pending.any fun i =>
      (slotCommit (slotAt e i)).2 && slotWakes (slotCommit (slotAt e i)).1 := by
  have h := commitLoop_snd e.pending e.slots e.procs false hnd
  simpa [engineCommit, slotAt] using h

theorem advanceLoop_concrete (now : ℚ) :
    ∀ (l : List (ℕ × Option ℚ)) (ps : List ℕ) (nda : ℚ),
      (∀ e ∈ l, ∃ d : ℚ, e.2 = some d ∧ now ≤ d) →
      ∃ ps2 m, advanceLoop now l ps (some nda) = some (ps2, some m) ∧
        m ≤ nda ∧
        (∀ e ∈ l, ∀ d : ℚ, e.2 = some d → m ≤ d) ∧
        (m = nda ∨ ∃ e ∈ l, e.2 = some m) ∧
        (∀ q, q ∈ ps2 ↔ (q ∈ ps ∧ m = nda) ∨ ∃ e ∈ l, e.1 = q ∧ e.2 = some m) := by
  intro l
  induction l with
  | nil =>
    intro ps nda _
    exact ⟨ps, nda, rfl, le_refl _, by simp, Or.inl rfl, by simp⟩
  | cons a rest ih =>
    intro ps nda h
    obtain ⟨d, hd, hnowd⟩ := h a (List.mem_cons_self a rest)
    obtain ⟨p, v⟩ := a
    simp only at hd
    subst hd
    have hrest : ∀ e ∈ rest, ∃ d : ℚ, e.2 = some d ∧ now ≤ d :=
      fun e he => h e (List.mem_cons_of_mem _ he)
    by_cases hle : d ≤ nda
    · by_cases hlt : d < nda
      · have hstep : advanceLoop now ((p, some d) :: rest) ps (some nda) =
            advanceLoop now rest [p] (some d) := by
          simp [advanceLoop, hle, hlt, hnowd]
        obtain ⟨ps2, m, heq, hmd, hbnd, hatt, hmem⟩ := ih [p] d hrest
        refine ⟨ps2, m, hstep ▸ heq, le_trans hmd (le_of_lt hlt), ?_, ?_, ?_⟩
        · intro e he d2 hd2
          rcases List.mem_cons.mp he with he1 | he2
          · rw [he1] at hd2
            simp only at hd2
            rw [Option.some_inj] at hd2
            exact hd2 ▸ hmd
          · exact hbnd e he2 d2 hd2
        · rcases hatt with hmd2 | ⟨e, he, hev⟩
          · exact Or.inr ⟨(p, some d), List.mem_cons_self _ _, by rw [hmd2]⟩
          · exact Or.inr ⟨e, List.mem_cons_of_mem _ he, hev⟩
        · intro q
          rw [hmem q]
          have hmnda : m ≠ nda := fun hmn => absurd (hmn ▸ hmd) (not_le.mpr (hmn ▸ hlt))
          constructor
          · rintro (⟨hq, hmd2⟩ | ⟨e, he, he1, he2⟩)
            · have hq2 : q = p := List.mem_singleton.mp hq
              exact Or.inr ⟨(p, some d), List.mem_cons_self _ _, hq2.symm, by rw [hmd2]⟩
            · exact Or.inr ⟨e, List.mem_cons_of_mem _ he, he1, he2⟩
          · rintro (⟨_, hmn⟩ | ⟨e, he, he1, he2⟩)
            · exact absurd hmn hmnda
            · rcases List.mem_cons.mp he with he3 | he3
              · subst he3
                simp only at he1 he2
                rw [Option.some_inj] at he2
                exact Or.inl ⟨by simp [he1], he2.symm⟩
              · exact Or.inr ⟨e, he3, he1, he2⟩
      · have hdn : d = nda := le_antisymm hle (not_lt.mp hlt)
        subst hdn
        have hstep : advanceLoop now ((p, some d) :: rest) ps (some d) =
            advanceLoop now rest (ps ++ [p]) (some d) := by
          simp [advanceLoop, hnowd]
        obtain ⟨ps2, m, heq, hmd, hbnd, hatt, hmem⟩ := ih (ps ++ [p]) d hrest
        refine ⟨ps2, m, hstep ▸ heq, hmd, ?_, ?_, ?_⟩
        · intro e he d2 hd2
          rcases List.mem_cons.mp he with he1 | he2
          · rw [he1] at hd2
            simp only at hd2
            rw [Option.some_inj] at hd2
            exact hd2 ▸ hmd
          · exact hbnd e he2 d2 hd2
        · rcases hatt with hmd2 | ⟨e, he, hev⟩
          · exact Or.inl hmd2
          · exact Or.inr ⟨e, List.mem_cons_of_mem _ he, hev⟩
        · intro q
          rw [hmem q]
          constructor
          · rintro (⟨hq, hmd2⟩ | ⟨e, he, he1, he2⟩)
            · rcases List.mem_append.mp hq with hq1 | hq2
              · exact Or.inl ⟨hq1, hmd2⟩
              · have hq3 : q = p := List.mem_singleton.mp hq2
                exact Or.inr ⟨(p, some d), List.mem_cons_self _ _, hq3.symm, by rw [hmd2]⟩
            · exact Or.inr ⟨e, List.mem_cons_of_mem _ he, he1, he2⟩
          · rintro (⟨hq, hmn⟩ | ⟨e, he, he1, he2⟩)
            · exact Or.inl ⟨List.mem_append.mpr (Or.inl hq), hmn⟩
            · rcases List.mem_cons.mp he with he3 | he3
              · subst he3
                simp only at he1 he2
                rw [Option.some_inj] at he2
                exact Or.inl ⟨List.mem_append.mpr (Or.inr (by simp [he1])), he2.symm⟩
              · exact Or.inr ⟨e, he3, he1, he2⟩
    · have hstep : advanceLoop now ((p, some d) :: rest) ps (some nda) =
          advanceLoop now rest ps (some nda) := by
        simp [advanceLoop, hle]
      obtain ⟨ps2, m, heq, hmd, hbnd, hatt, hmem⟩ := ih ps nda hrest
      have hnlt : nda < d := not_le.mp hle
      refine ⟨ps2, m, hstep ▸ heq, hmd, ?_, ?_, ?_⟩
      · intro e he d2 hd2
        rcases List.mem_cons.mp he with he1 | he2
        · rw [he1] at hd2
          simp only at hd2
          rw [Option.some_inj] at hd2
          exact hd2 ▸ le_trans hmd (le_of_lt hnlt)
        · exact hbnd e he2 d2 hd2
      · rcases hatt with hmd2 | ⟨e, he, hev⟩
        · exact Or.inl hmd2
        · exact Or.inr ⟨e, List.mem_cons_of_mem _ he, hev⟩
      · intro q
        rw [hmem q]
        constructor
        · rintro (⟨hq, hmd2⟩ | ⟨e, he, he1, he2⟩)
          · exact Or.inl ⟨hq, hmd2⟩
          · exact Or.inr ⟨e, List.mem_cons_of_mem _ he, he1, he2⟩
        · rintro (⟨hq, hmn⟩ | ⟨e, he, he1, he2⟩)
          · exact Or.inl ⟨hq, hmn⟩
          · rcases List.mem_cons.mp he with he3 | he3
            · subst he3
              simp only at he1 he2
              rw [Option.some_inj] at he2
              exact absurd (he2 ▸ hmd) (not_le.mpr (he2 ▸ hnlt))
            · exact Or.inr ⟨e, he3, he1, he2⟩

theorem advance_concrete (s : TimeState)
    (h : ∀ e ∈ s.deadlines, ∃ d : ℚ, e.2 = some d ∧ s.timestamp ≤ d)
    (hne : s.deadlines ≠ []) :
    ∃ woken m, advance s =
        some (⟨m, s.deadlines.filter fun e => !woken.contains e.1⟩, woken, true) ∧
      (∀ e ∈ s.deadlines, ∀ d : ℚ, e.2 = some d → m ≤ d) ∧
      (∃ e ∈ s.deadlines, e.2 = some m) ∧
      (∀ q, q ∈ woken ↔ ∃ e ∈ s.deadlines, e.1 = q ∧ e.2 = some m) := by
  cases hds : s.deadlines with
  | nil => exact absurd hds hne
  | cons a rest =>
    obtain ⟨p, v⟩ := a
    obtain ⟨d, hd, hnowd⟩ := h (p, v) (hds ▸ List.mem_cons_self _ _)
    simp only at hd
    subst hd
    have hrest : ∀ e ∈ rest, ∃ d : ℚ, e.2 = some d ∧ s.timestamp ≤ d :=
      fun e he => h e (hds ▸ List.mem_cons_of_mem _ he)
    obtain ⟨ps2, m, heq, hmd, hbnd, hatt, hmem⟩ :=
      advanceLoop_concrete s.timestamp rest [p] d hrest
    have hloop : advanceLoop s.timestamp s.deadlines [] none = some (ps2, some m) := by
      rw [hds]
      show advanceLoop s.timestamp ((p, some d) :: rest) [] none = _
      simp only [advanceLoop, hnowd, if_true, List.nil_append]
      exact heq
    have hbndFull : ∀ e ∈ s.deadlines, ∀ d2 : ℚ, e.2 = some d2 → m ≤ d2 := by
      intro e he d2 hd2
      rw [hds] at he
      rcases List.mem_cons.mp he with he1 | he2
      · rw [he1] at hd2
        simp only at hd2
        rw [Option.some_inj] at hd2
        exact hd2 ▸ hmd
      · exact hbnd e he2 d2 hd2
    have hattFull : ∃ e ∈ s.deadlines, e.2 = some m := by
      rw [hds]
      rcases hatt with hmd2 | ⟨e, he, hev⟩
      · exact ⟨(p, some d), List.mem_cons_self _ _, by rw [hmd2]⟩
      · exact ⟨e, List.mem_cons_of_mem _ he, hev⟩
    have hmemFull : ∀ q, q ∈ ps2 ↔ ∃ e ∈ s.deadlines, e.1 = q ∧ e.2 = some m := by
      intro q
      rw [hmem q, hds]
      constructor
      · rintro (⟨hq, hmd2⟩ | ⟨e, he, he1, he2⟩)
        · have hq2 : q = p := List.mem_singleton.mp hq
          exact ⟨(p, some d), List.mem_cons_self _ _, hq2.symm, by rw [hmd2]⟩
        · exact ⟨e, List.mem_cons_of_mem _ he, he1, he2⟩
      · rintro ⟨e, he, he1, he2⟩
        rcases List.mem_cons.mp he with he3 | he3
        · subst he3
          simp only at he1 he2
          rw [Option.some_inj] at he2
          exact Or.inl ⟨by simp [he1], he2.symm⟩
        · exact Or.inr ⟨e, he3, he1, he2⟩
    have hps2ne : ps2 ≠ [] := by
      obtain ⟨e, he, hev⟩ := hattFull
      have : e.1 ∈ ps2 := (hmemFull e.1).mpr ⟨e, he, rfl, hev⟩
      exact fun hnil => by rw [hnil] at this; cases this
    refine ⟨ps2, m, ?_, hds ▸ hbndFull, hds ▸ hattFull, hds ▸ hmemFull⟩
    simp only [advance]
    rw [hloop]
    simp [List.isEmpty_eq_false.mpr hps2ne, hds]

theorem advanceLoop_break (now : ℚ) (p : ℕ) (l2 : List (ℕ × Option ℚ)) :
    ∀ (l1 : List (ℕ × Option ℚ)) (ps : List ℕ) (nda : ℚ),
      (∀ e ∈ l1, ∃ d : ℚ, e.2 = some d ∧ now ≤ d) →
      advanceLoop now (l1 ++ (p, none) :: l2) ps (some nda) = some ([p], some now) := by
  intro l1
  induction l1 with
  | nil =>
    intro ps nda _
    simp [advanceLoop]
  | cons a rest ih =>
    intro ps nda h
    obtain ⟨d, hd, hnowd⟩ := h a (List.mem_cons_self a rest)
    obtain ⟨q, v⟩ := a
    simp only at hd
    subst hd
    have hr : ∀ e ∈ rest, ∃ d : ℚ, e.2 = some d ∧ now ≤ d :=
      fun e he => h e (List.mem_cons_of_mem _ he)
    by_cases hle : d ≤ nda
    · by_cases hlt : d < nda
      · show advanceLoop now ((q, some d) :: (rest ++ (p, none) :: l2)) ps (some nda) = _
        simp only [advanceLoop, hle, hlt, hnowd, if_true]
        exact ih _ _ hr
      · show advanceLoop now ((q, some d) :: (rest ++ (p, none) :: l2)) ps (some nda) = _
        simp only [advanceLoop, hle, hlt, hnowd, if_true, if_false]
        exact ih _ _ hr
    · show advanceLoop now ((q, some d) :: (rest ++ (p, none) :: l2)) ps (some nda) = _
      simp only [advanceLoop, hle, if_false]
      exact ih _ _ hr

theorem advance_break (s : TimeState) (l1 : List (ℕ × Option ℚ)) (p : ℕ)
    (l2 : List (ℕ × Option ℚ)) (hds : s.deadlines = l1 ++ (p, none) :: l2)
    (h1 : ∀ e ∈ l1, ∃ d : ℚ, e.2 = some d ∧ s.timestamp ≤ d) :
    advance s =
      some (⟨s.timestamp, s.deadlines.filter fun e => !([p].contains e.1)⟩, [p], true) := by
  have hloop : advanceLoop s.timestamp s.deadlines [] none = some ([p], some s.timestamp) := by
    rw [hds]
    cases l1 with
    | nil => simp [advanceLoop]
    | cons a rest =>
      obtain ⟨q, v⟩ := a
      obtain ⟨d, hd, hnowd⟩ := h1 (q, v) (List.mem_cons_self _ _)
      simp only at hd
      subst hd
      show advanceLoop s.timestamp ((q, some d) :: (rest ++ (p, none) :: l2)) [] none = _
      simp only [advanceLoop, hnowd, if_true, List.nil_append]
      exact advanceLoop_break s.timestamp p l2 rest [q] d
        fun e he => h1 e (List.mem_cons_of_mem _ he)
  simp only [advance]
  rw [hloop]
  simp

theorem keys_nodup_eq {ds : List (ℕ × Option ℚ)} (h : (ds.map Prod.fst).Nodup)
    {e f : ℕ × Option ℚ} (he : e ∈ ds) (hf : f ∈ ds) (hef : e.1 = f.1) : e = f := by
  induction ds with
  | nil => cases he
  | cons a t ih =>
    have h2 : (a.1 :: t.map Prod.fst).Nodup := by simpa using h
    have hnd := List.nodup_cons.mp h2
    rcases List.mem_cons.mp he with he1 | he2 <;> rcases List.mem_cons.mp hf with hf1 | hf2
    · rw [he1, hf1]
    · exact absurd (List.mem_map.mpr ⟨f, hf2, (he1 ▸ hef).symm⟩) hnd.1
    · exact absurd (List.mem_map.mpr ⟨e, he2, hf1 ▸ hef⟩) hnd.1
    · exact ih hnd.2 he2 hf2

theorem exists_first_none (ds : List (ℕ × Option ℚ))
    (h : ∃ e ∈ ds, e.2 = (none : Option ℚ)) :
    ∃ l1 p l2, ds = l1 ++ (p, none) :: l2 ∧ ∀ e ∈ l1, e.2 ≠ (none : Option ℚ) := by
  induction ds with
  | nil => obtain ⟨e, he, _⟩ := h; cases he
  | cons a t ih =>
    by_cases ha : a.2 = (none : Option ℚ)
    · exact ⟨[], a.1, t, by rw [List.nil_append]; rw [show a = (a.1, (none : Option ℚ)) from
        Prod.ext rfl ha], by intro e he; cases he⟩
    · obtain ⟨e, he, hev⟩ := h
      rcases List.mem_cons.mp he with he1 | he2
      · exact absurd (he1 ▸ hev) ha
      · obtain ⟨l1, p, l2, ht, hl1⟩ := ih ⟨e, he2, hev⟩
        refine ⟨a :: l1, p, l2, by rw [ht]; rfl, ?_⟩
        intro f hf
        rcases List.mem_cons.mp hf with hf1 | hf2
        · exact hf1 ▸ ha
        · exact hl1 f hf2

theorem mem_dictSet {ds : List (ℕ × Option ℚ)} {p : ℕ} {v : Option ℚ} {x : ℕ × Option ℚ}
    (hx : x ∈ dictSet ds p v) : x ∈ ds ∨ x = (p, v) := by
  unfold dictSet at hx
  by_cases hp : ds.any fun e => e.1 == p
  · rw [if_pos hp] at hx
    obtain ⟨e, he, hev⟩ := List.mem_map.mp hx
    by_cases hep : e.1 == p
    · rw [if_pos hep] at hev
      exact Or.inr hev.symm
    · rw [if_neg hep] at hev
      exact Or.inl (hev ▸ he)
  · rw [if_neg hp] at hx
    rcases List.mem_append.mp hx with h1 | h2
    · exact Or.inl h1
    · exact Or.inr (List.mem_singleton.mp h2)

theorem land_coe_mask (x : ℤ) (m : ℕ) :
    ∃ a : ℕ, Int.land x (m : ℤ) = (a : ℤ) ∧ a ≤ m := by
  cases x with
  | ofNat n =>
    refine ⟨n &&& m, rfl, ?_⟩
    apply Nat.le_of_testBit
    intro i hi
    rw [Nat.testBit_and] at hi
    exact (Bool.and_eq_true_iff.mp hi).2
  | negSucc n =>
    refine ⟨Nat.ldiff m n, rfl, ?_⟩
    apply Nat.le_of_testBit
    intro i hi
    rw [Nat.testBit_ldiff] at hi
    exact (Bool.and_eq_true_iff.mp hi).1

theorem land_lnot_coe (a b : ℕ) :
    Int.land (a : ℤ) (Int.lnot (b : ℤ)) = ((Nat.ldiff a b : ℕ) : ℤ) := rfl

theorem lor_coe (a b : ℕ) : Int.lor (a : ℤ) (b : ℤ) = ((a ||| b : ℕ) : ℤ) := rfl

theorem land_coe (a b : ℕ) : Int.land (a : ℤ) (b : ℤ) = ((a &&& b : ℕ) : ℤ) := rfl

end Pysim

open Pysim

/-- C5: for all operand values of signed or unsigned shape, the compiled
integer-division and modulo operators evaluate to 0 when the divisor is 0
(i.e. when the divisor operand masked to its width is 0).  Both are total
Lean functions mirroring the total Python helpers `zdiv`/`zmod`, so no
exception is possible. -/
theorem C5_div_mod_by_zero (lsg : Bool) (lw : ℕ) (rsg : Bool) (rw : ℕ)
    (lv rv : ℤ) (h : evalMask rw rv = 0) :
    evalFloorDiv lsg lw rsg rw lv rv = 0 ∧ evalFloorMod lsg lw rsg rw lv rv = 0 := by
  have hz : evalSign rsg rw rv = 0 := evalSign_of_mask_zero rsg rw rv h
  constructor
  · simp [evalFloorDiv, hz, zdiv]
  · simp [evalFloorMod, hz, zmod]

/-- C5 witness: a signed 4-bit dividend -3 divided by the 5-bit divisor 32
(whose masked value is 0) yields 0 for both `//` and `%`. -/
theorem C5_div_mod_by_zero_witness :
    evalMask 5 32 = 0 ∧
      evalFloorDiv true 4 true 5 (-3) 32 = 0 ∧ evalFloorMod true 4 true 5 (-3) 32 = 0 := by
  refine ⟨by decide, ?_⟩
  have h := C5_div_mod_by_zero true 4 true 5 (-3) 32 (by decide)
  exact h

/-- C7: a switch-case pattern containing don't-care markers matches a test
value exactly when the test value masked by the derived mask equals the
pattern's fixed bits; in particular the 3-bit pattern `1-0` matches 0b100
and 0b110 and rejects 0b101 and 0b111. -/
theorem C7_dont_care_patterns :
    (∀ (test : ℕ) (p : List Char), '-' ∈ p →
        (patternMatches test p = true ↔ test &&& patMask p = patBits p)) ∧
      patternMatches 4 ['1', '-', '0'] = true ∧
      patternMatches 6 ['1', '-', '0'] = true ∧
      patternMatches 5 ['1', '-', '0'] = false ∧
      patternMatches 7 ['1', '-', '0'] = false := by
  refine ⟨?_, by decide, by decide, by decide, by decide⟩
  intro test p hp
  have hc : p.contains '-' = true := List.elem_iff.mpr hp
  unfold patternMatches
  rw [hc]
  simp

/-- C7 witness: the general characterization applied at the concrete pattern
`1-0` and test value 0b100, whose hypothesis (the pattern contains a
don't-care marker) is discharged by evaluation. -/
theorem C7_dont_care_patterns_witness :
    patternMatches 4 ['1', '-', '0'] = true ↔ 4 &&& patMask ['1', '-', '0'] = patBits ['1', '-', '0'] :=
  C7_dont_care_patterns.1 4 ['1', '-', '0'] (by decide)

/-- C4 counterexample: the claimed two-way correspondence between pending
membership and `next ≠ curr` is false.  `set` compares the written value
against `next`, not against `curr`: writing 1 and then writing 0 back to a
slot whose committed value is 0 leaves the slot in the pending set with
`next = curr`.  The violating state is reached from the empty store by one
slot creation and the two writes. -/
theorem C4_counterexample :
    ¬ ∀ e : Engine, Reach e →
        ∀ i : ℕ, i ∈ e.pending ↔ (slotAt e i).next ≠ (slotAt e i).curr := by
  intro h
  have hr : Reach (storeSet (storeSet (newSlot ⟨[], [], []⟩ 0) 0 1) 0 0) :=
    .set 0 0 (.set 0 1 (.newSlot 0 .init))
  have h2 := (h _ hr 0).mp (by decide)
  exact h2 (by decide)

/-- C4 amended: in every reachable state, a slot whose `next` differs from
`curr` is in the pending set (but a pending slot's `next` may equal `curr`
again, when a later write restored the committed value); `set` is a no-op
when the written value equals the slot's current `next`; and commit always
drains the pending set to empty. -/
theorem C4_pending_invariant (e : Engine) (h : Reach e) :
    (∀ i, (slotAt e i).next ≠ (slotAt e i).curr → i ∈ e.pending) ∧
      (∀ i v, (slotAt e i).next = v → storeSet e i v = e) ∧
      (engineCommit e).1.pending = [] := by
  refine ⟨fun i hi => ?_, fun i v hv => by simp [storeSet, hv], rfl⟩
  by_contra hip
  exact hi ((reach_inv h).2 i hip).symm

/-- C4 witness: the amended invariant applied to the concrete reachable
store holding one slot written 1 and then written back to 0. -/
theorem C4_pending_invariant_witness :
    (∀ i, (slotAt (storeSet (storeSet (newSlot ⟨[], [], []⟩ 0) 0 1) 0 0) i).next ≠
        (slotAt (storeSet (storeSet (newSlot ⟨[], [], []⟩ 0) 0 1) 0 0) i).curr →
        i ∈ (storeSet (storeSet (newSlot ⟨[], [], []⟩ 0) 0 1) 0 0).pending) ∧
      (∀ i v, (slotAt (storeSet (storeSet (newSlot ⟨[], [], []⟩ 0) 0 1) 0 0) i).next = v →
        storeSet (storeSet (storeSet (newSlot ⟨[], [], []⟩ 0) 0 1) 0 0) i v =
          storeSet (storeSet (newSlot ⟨[], [], []⟩ 0) 0 1) 0 0) ∧
      (engineCommit (storeSet (storeSet (newSlot ⟨[], [], []⟩ 0) 0 1) 0 0)).1.pending = [] :=
  C4_pending_invariant _ (.set 0 0 (.set 0 1 (.newSlot 0 .init)))

/-- C10: immediately after the store-wide commit, the pending set is empty
and every slot satisfies `curr = next`; consequently a second commit
performed immediately changes no slot and returns false. -/
theorem C10_commit_idempotent (e : Engine) (h : Reach e) :
    (engineCommit e).1.pending = [] ∧
      (∀ j, (slotAt (engineCommit e).1 j).curr = (slotAt (engineCommit e).1 j).next) ∧
      engineCommit (engineCommit e).1 = ((engineCommit e).1, false) :=
  ⟨rfl, engineCommit_post (reach_inv h), rfl⟩

/-- C10 witness: the post-commit properties at the concrete reachable store
with one slot pending a change from 0 to 1. -/
theorem C10_commit_idempotent_witness :
    (engineCommit (storeSet (newSlot ⟨[], [], []⟩ 0) 0 1)).1.pending = [] ∧
      (∀ j, (slotAt (engineCommit (storeSet (newSlot ⟨[], [], []⟩ 0) 0 1)).1 j).curr =
        (slotAt (engineCommit (storeSet (newSlot ⟨[], [], []⟩ 0) 0 1)).1 j).next) ∧
      engineCommit (engineCommit (storeSet (newSlot ⟨[], [], []⟩ 0) 0 1)).1 =
        ((engineCommit (storeSet (newSlot ⟨[], [], []⟩ 0) 0 1)).1, false) :=
  C10_commit_idempotent _ (.set 0 1 (.newSlot 0 .init))

/-- C2 counterexample: a delta cycle does not return whether any committed
current value changed.  With one runnable process that writes 1 into slot 0
(which has no registered waiters), the commit changes the slot's committed
value from 0 to 1, yet `_delta` returns false, because
`_SimulatorState.commit` returns whether any waiter was awoken. -/
theorem C2_counterexample :
    (delta writeOneRun ⟨[⟨0, 0, 0, []⟩], [], [⟨true, false⟩]⟩).2 = false ∧
      (slotAt (delta writeOneRun ⟨[⟨0, 0, 0, []⟩], [], [⟨true, false⟩]⟩).1 0).curr = 1 ∧
      (slotAt (⟨[⟨0, 0, 0, []⟩], [], [⟨true, false⟩]⟩ : Engine) 0).curr = 0 := by
  decide

/-- C2 amended: a delta cycle runs every currently-runnable process exactly
once (clearing its runnable flag before running it) and then commits the
store — `delta` is by construction the commit of the run phase — and it
returns true if and only if the commit awoke at least one waiter, i.e. some
pending slot's committed value changed AND that slot had a waiter whose
trigger was absent or matched the new value.  (A changed signal with no
matching waiter makes `delta` return false.) -/
theorem C2_delta_return (run : ℕ → Engine → Engine) (e : Engine)
    (h : (runPhase run e).pending.Nodup) :
    delta run e = engineCommit (runPhase run e) ∧
      ((delta run e).2 = true ↔ ∃ i ∈ (runPhase run e).pending,
        (slotCommit (slotAt (runPhase run e) i)).2 = true ∧
          slotWakes (slotCommit (slotAt (runPhase run e) i)).1 = true) := by
  refine ⟨rfl, ?_⟩
  rw [show (delta run e).2 = (engineCommit (runPhase run e)).2 from rfl, engineCommit_snd h]
  simp [List.any_eq_true]

/-- C2 witness: the amended characterization at a concrete engine whose one
runnable process writes 1 into slot 0, on which a waiter with no trigger is
registered; the pending set of the run phase is duplicate-free by
evaluation. -/
theorem C2_delta_return_witness :
    delta writeOneRun ⟨[⟨0, 0, 0, [(0, none)]⟩], [], [⟨true, false⟩]⟩ =
        engineCommit (runPhase writeOneRun ⟨[⟨0, 0, 0, [(0, none)]⟩], [], [⟨true, false⟩]⟩) ∧
      ((delta writeOneRun ⟨[⟨0, 0, 0, [(0, none)]⟩], [], [⟨true, false⟩]⟩).2 = true ↔
        ∃ i ∈ (runPhase writeOneRun ⟨[⟨0, 0, 0, [(0, none)]⟩], [], [⟨true, false⟩]⟩).pending,
          (slotCommit (slotAt (runPhase writeOneRun
            ⟨[⟨0, 0, 0, [(0, none)]⟩], [], [⟨true, false⟩]⟩) i)).2 = true ∧
            slotWakes (slotCommit (slotAt (runPhase writeOneRun
              ⟨[⟨0, 0, 0, [(0, none)]⟩], [], [⟨true, false⟩]⟩) i)).1 = true) :=
  C2_delta_return writeOneRun ⟨[⟨0, 0, 0, [(0, none)]⟩], [], [⟨true, false⟩]⟩ (by decide)

/-- C1 counterexample: `advance` does not wake and remove EVERY process
whose effective deadline equals the minimum.  At timestamp 0 with deadline
map `[(0, None), (1, None)]` both processes are due immediately (effective
deadline 0 = the minimum), so the claim requires both to be removed, leaving
an empty map; but the loop breaks at the first `None` entry, waking only
process 0 and leaving `(1, None)` in the map. -/
theorem C1_advance_counterexample :
    ¬ ∀ r : TimeState × List ℕ × Bool,
        advance ⟨0, [(0, none), (1, none)]⟩ = some r → r.1.deadlines = [] := by
  intro h
  have h2 := h (⟨0, [(1, none)]⟩, [0], true) (by decide)
  simp at h2

/-- C1 amended: `advance` returns false exactly when the deadline map is
empty.  When the map is non-empty and every entry has a concrete timestamp,
it wakes and removes exactly the entries bearing the minimum timestamp, and
sets the engine timestamp to that minimum.  But when the map contains an
entry with no timestamp, the loop breaks at the FIRST such entry (in
insertion order): only that single process is woken and removed, at the
unchanged current time, even if other entries are also due now.
Hypotheses: the map's keys are unique (it is a Python dict) and every
concrete deadline is at or after the current time (otherwise the
`assert deadline >= self.timestamp` fires). -/
theorem C1_advance_behavior (s : TimeState)
    (hk : (s.deadlines.map Prod.fst).Nodup)
    (hge : ∀ e ∈ s.deadlines, s.timestamp ≤ e.2.getD s.timestamp) :
    (s.deadlines = [] → advance s = some (s, [], false)) ∧
      ((∀ e ∈ s.deadlines, e.2 ≠ none) → s.deadlines ≠ [] →
        ∃ woken m, advance s =
            some (⟨m, s.deadlines.filter fun e => !woken.contains e.1⟩, woken, true) ∧
          (∀ e ∈ s.deadlines, ∀ d : ℚ, e.2 = some d → m ≤ d) ∧
          (∃ e ∈ s.deadlines, e.2 = some m) ∧
          (∀ e ∈ s.deadlines, (e.1 ∈ woken ↔ e.2 = some m))) ∧
      (∀ l1 p l2, s.deadlines = l1 ++ (p, none) :: l2 → (∀ e ∈ l1, e.2 ≠ none) →
        advance s =
          some (⟨s.timestamp, s.deadlines.filter fun e => !([p].contains e.1)⟩, [p], true)) := by
  refine ⟨fun hds => ?_, fun hnone hne => ?_, fun l1 p l2 hds hl1 => ?_⟩
  · simp [advance, hds, advanceLoop]
  · have hx : ∀ e ∈ s.deadlines, ∃ d : ℚ, e.2 = some d ∧ s.timestamp ≤ d := by
      intro e he
      cases hev : e.2 with
      | none => exact absurd hev (hnone e he)
      | some d =>
        refine ⟨d, rfl, ?_⟩
        have hb := hge e he
        rw [hev] at hb
        exact hb
    obtain ⟨woken, m, heq, hbnd, hatt, hmem⟩ := advance_concrete s hx hne
    refine ⟨woken, m, heq, hbnd, hatt, fun e he => ?_⟩
    constructor
    · intro hew
      obtain ⟨f, hf, hf1, hf2⟩ := (hmem e.1).mp hew
      have hfe : f = e := keys_nodup_eq hk hf he hf1
      exact hfe ▸ hf2
    · intro hev
      exact (hmem e.1).mpr ⟨e, he, rfl, hev⟩
  · apply advance_break s l1 p l2 hds
    intro e he
    cases hev : e.2 with
    | none => exact absurd hev (hl1 e he)
    | some d =>
      refine ⟨d, rfl, ?_⟩
      have heds : e ∈ s.deadlines := hds ▸ List.mem_append_left _ he
      have hb := hge e heds
      rw [hev] at hb
      exact hb

/-- C1 witness: the amended behavior applied to the concrete state with
timestamp 0 and deadline map `[(5, 2), (7, 3), (9, 2)]`; key uniqueness and
the timestamp bound are discharged by evaluation. -/
theorem C1_advance_behavior_witness :
    ((⟨0, [(5, some 2), (7, some 3), (9, some 2)]⟩ : TimeState).deadlines = [] →
        advance ⟨0, [(5, some 2), (7, some 3), (9, some 2)]⟩ =
          some (⟨0, [(5, some 2), (7, some 3), (9, some 2)]⟩, [], false)) ∧
      ((∀ e ∈ (⟨0, [(5, some 2), (7, some 3), (9, some 2)]⟩ : TimeState).deadlines,
          e.2 ≠ none) →
        (⟨0, [(5, some 2), (7, some 3), (9, some 2)]⟩ : TimeState).deadlines ≠ [] →
        ∃ woken m, advance ⟨0, [(5, some 2), (7, some 3), (9, some 2)]⟩ =
            some (⟨m, (⟨0, [(5, some 2), (7, some 3), (9, some 2)]⟩ : TimeState).deadlines.filter
              fun e => !woken.contains e.1⟩, woken, true) ∧
          (∀ e ∈ (⟨0, [(5, some 2), (7, some 3), (9, some 2)]⟩ : TimeState).deadlines,
            ∀ d : ℚ, e.2 = some d → m ≤ d) ∧
          (∃ e ∈ (⟨0, [(5, some 2), (7, some 3), (9, some 2)]⟩ : TimeState).deadlines,
            e.2 = some m) ∧
          (∀ e ∈ (⟨0, [(5, some 2), (7, some 3), (9, some 2)]⟩ : TimeState).deadlines,
            (e.1 ∈ woken ↔ e.2 = some m))) ∧
      (∀ l1 p l2,
        (⟨0, [(5, some 2), (7, some 3), (9, some 2)]⟩ : TimeState).deadlines =
          l1 ++ (p, none) :: l2 →
        (∀ e ∈ l1, e.2 ≠ none) →
        advance ⟨0, [(5, some 2), (7, some 3), (9, some 2)]⟩ =
          some (⟨(⟨0, [(5, some 2), (7, some 3), (9, some 2)]⟩ : TimeState).timestamp,
            (⟨0, [(5, some 2), (7, some 3), (9, some 2)]⟩ : TimeState).deadlines.filter
              fun e => !([p].contains e.1)⟩, [p], true)) :=
  C1_advance_behavior ⟨0, [(5, some 2), (7, some 3), (9, some 2)]⟩ (by decide) (by decide)

/-- C8 counterexample: a coroutine yielding `Delay` with a negative interval
puts a concrete deadline strictly before the current engine time into the
deadline map, so the claimed invariant is false for arbitrary intervals.
From the initial state, `Delay(-1)` at timestamp 0 stores deadline -1. -/
theorem C8_counterexample :
    ¬ ∀ s : TimeState, TReach s →
        ∀ (p : ℕ) (d : ℚ), (p, some d) ∈ s.deadlines → s.timestamp ≤ d := by
  intro h
  have hr := TReach.delay (s := ⟨0, []⟩) 0 (-1) TReach.init
  have hle := h _ hr 0 ((0 : ℚ) + -1) (by simp [dictSet])
  have hts : (⟨(0 : ℚ), dictSet [] 0 (some ((0 : ℚ) + -1))⟩ : TimeState).timestamp = 0 := rfl
  rw [hts] at hle
  norm_num at hle

/-- C8 amended: as long as every `Delay` interval is nonnegative, at every
reachable simulation state every concrete timestamp stored in the deadline
map is at or after the current engine timestamp (so in particular the
`assert deadline >= self.timestamp` inside `advance` never fires). -/
theorem C8_deadlines_ge_timestamp (s : TimeState) (h : TReachNN s) :
    ∀ (p : ℕ) (d : ℚ), (p, some d) ∈ s.deadlines → s.timestamp ≤ d := by
  induction h with
  | init => intro p d hm; cases hm
  | settle q _ ih =>
    intro p d hm
    rcases mem_dictSet hm with hm1 | hm2
    · exact ih p d hm1
    · simp at hm2
  | delay q i hnn _ ih =>
    rename_i s0 _
    intro p d hm
    rcases mem_dictSet hm with hm1 | hm2
    · exact ih p d hm1
    · have h2 : some d = some (s0.timestamp + i) := congrArg Prod.snd hm2
      rw [Option.some_inj] at h2
      show s0.timestamp ≤ d
      rw [h2]
      linarith
  | advanceStep _ heq ih =>
    rename_i s0 s2 w b _
    by_cases hemp : s0.deadlines = []
    · have hadv : advance s0 = some (s0, [], false) := by simp [advance, hemp, advanceLoop]
      rw [hadv] at heq
      have h1 := Option.some.inj heq
      have h2 : s0 = s2 := congrArg Prod.fst h1
      exact h2 ▸ ih
    · by_cases hnone : ∃ e ∈ s0.deadlines, e.2 = (none : Option ℚ)
      · obtain ⟨l1, p0, l2, hds, hl1⟩ := exists_first_none _ hnone
        have hx : ∀ e ∈ l1, ∃ d : ℚ, e.2 = some d ∧ s0.timestamp ≤ d := by
          intro e he
          cases hev : e.2 with
          | none => exact absurd hev (hl1 e he)
          | some d =>
            refine ⟨d, rfl, ?_⟩
            have heds : e ∈ s0.deadlines := hds ▸ List.mem_append_left _ he
            have hmem2 : (e.1, some d) ∈ s0.deadlines := by
              rw [← hev]
              exact heds
            exact ih e.1 d hmem2
        have hadv := advance_break s0 l1 p0 l2 hds hx
        rw [hadv] at heq
        have h1 := Option.some.inj heq
        have h2 : (⟨s0.timestamp,
            s0.deadlines.filter fun e => !([p0].contains e.1)⟩ : TimeState) = s2 :=
          congrArg Prod.fst h1
        intro p d hm
        rw [← h2] at hm ⊢
        have hin : (p, some d) ∈ s0.deadlines := (List.mem_filter.mp hm).1
        exact ih p d hin
      · push_neg at hnone
        have hx : ∀ e ∈ s0.deadlines, ∃ d : ℚ, e.2 = some d ∧ s0.timestamp ≤ d := by
          intro e he
          cases hev : e.2 with
          | none => exact absurd hev (hnone e he)
          | some d =>
            refine ⟨d, rfl, ?_⟩
            have hmem2 : (e.1, some d) ∈ s0.deadlines := by
              rw [← hev]
              exact he
            exact ih e.1 d hmem2
        obtain ⟨woken, m, hadv, hbnd, _, _⟩ := advance_concrete s0 hx hemp
        rw [hadv] at heq
        have h1 := Option.some.inj heq
        have h2 : (⟨m, s0.deadlines.filter fun e => !woken.contains e.1⟩ : TimeState) = s2 :=
          congrArg Prod.fst h1
        intro p d hm
        rw [← h2] at hm ⊢
        have hin : (p, some d) ∈ s0.deadlines := (List.mem_filter.mp hm).1
        exact hbnd (p, some d) hin d rfl
  | reset _ _ => intro p d hm; cases hm

/-- C8 witness: the amended invariant at the concrete state reached by
yielding `Delay(1)` from the initial state, applied to its single deadline
entry. -/
theorem C8_deadlines_ge_timestamp_witness :
    (⟨(0 : ℚ), dictSet [] 0 (some ((0 : ℚ) + 1))⟩ : TimeState).timestamp ≤ (0 : ℚ) + 1 :=
  C8_deadlines_ge_timestamp _ (TReachNN.delay 0 1 (by norm_num) TReachNN.init) 0 ((0 : ℚ) + 1)
    (by simp [dictSet])

/-- C3: the claim is right and the code is wrong.  `Simulator.reset`
restores the slots, clears pending/deadlines and restarts every coroutine
runnable with `waits_on` emptied — but neither `_SimulatorState.reset` nor
`_CoroutineProcess.reset` removes the process from the slots' waiter
dictionaries, so a coroutine that was suspended on a `Tick` stays registered
as a waiter after `reset()`.  Concretely: one slot (a domain clock, reset
value 0, current value 1) whose waiter dictionary holds process 0 with
trigger 1, and process 0 with `waits_on = [0]`.  After `simReset` the
process is restarted with no recorded waits, yet the slot still lists it as
a waiter; the next `Tick` on the same clock then fails the source's own
`assert self not in signal_state.waiters` in `get_in_signal`
(`getInSignal` returns `none`), and any clock change spuriously wakes the
restarted process. -/
theorem C3_reset_leaves_stale_waiter :
    (simReset ⟨[⟨0, 1, 1, [(0, some 1)]⟩], [], 3, [], [⟨false, false, [0]⟩]⟩).slots =
        [⟨0, 0, 0, [(0, some 1)]⟩] ∧
      (simReset ⟨[⟨0, 1, 1, [(0, some 1)]⟩], [], 3, [], [⟨false, false, [0]⟩]⟩).procs =
        [⟨true, false, []⟩] ∧
      getInSignal (simReset ⟨[⟨0, 1, 1, [(0, some 1)]⟩], [], 3, [], [⟨false, false, [0]⟩]⟩)
        0 0 (some 1) = none := by
  decide

/-- C9: a coroutine yielding `Tick` that names, as a string, a domain absent
from the simulation raises a `NameError` at that process's suspension point,
and the error is delivered back into the testbench body as an exception
(`self.coroutine.throw(exn)`), so user code can in principle catch it. -/
theorem C9_tick_unknown_domain (domains : List (String × DomainInfo)) (now : ℚ)
    (defaultCmd : Option SimCommand) (n : String) (h : ∀ e ∈ domains, e.1 ≠ n) :
    runStep domains now (some (.tick (.byName n))) defaultCmd =
      .thrownIntoCoroutine (.nameError n) := by
  have hf : (domains.find? fun e => e.1 == n) = none := by
    rw [List.find?_eq_none]
    intro e he
    simp [h e he]
  simp [runStep, effectiveCommand, dispatchCommand, hf]

/-- C9 witness: a simulation whose only domain is `sync`, with a process
yielding `Tick("por")`: the step delivers `NameError("por")` into the
coroutine. -/
theorem C9_tick_unknown_domain_witness :
    runStep [("sync", ⟨0, true, none, false⟩)] 0
        (some (.tick (.byName "por"))) none =
      .thrownIntoCoroutine (.nameError "por") :=
  C9_tick_unknown_domain [("sync", ⟨0, true, none, false⟩)] 0 none "por" (by decide)


theorem sliceAssignNext_spec (w start stop : ℕ) (next : ℕ) (arg : ℤ)
    (hss : start ≤ stop) (hsw : stop ≤ w) (hn : next < 2 ^ w) :
    ∃ r : ℕ, sliceAssignNext w start stop (next : ℤ) arg = (r : ℤ) ∧
      (∀ i : ℕ, ¬(start ≤ i ∧ i < stop) → r.testBit i = next.testBit i) ∧
      (∀ i : ℕ, start ≤ i → i < stop →
        r.testBit i =
          (Int.land arg ((2 ^ (stop - start) - 1 : ℕ) : ℤ)).toNat.testBit (i - start)) := by
  obtain ⟨am, ham, hamle⟩ := land_coe_mask arg (2 ^ (stop - start) - 1)
  have hamlt : am < 2 ^ (stop - start) := by
    have h1 : (0 : ℕ) < 2 ^ (stop - start) := Nat.two_pow_pos _
    omega
  refine ⟨(Nat.ldiff next ((2 ^ (stop - start) - 1) <<< start) |||
      am <<< start) &&& (2 ^ w - 1), ?_, ?_, ?_⟩
  · unfold sliceAssignNext sliceRMW signalSetUnsigned
    rw [ham, Int.shiftLeft_coe_nat, Int.shiftLeft_coe_nat, land_lnot_coe, lor_coe, land_coe]
  · intro i hi
    by_cases hiw : i < w
    · by_cases his : i < start
      · have h1 : ¬ start ≤ i := by omega
        simp [Nat.testBit_and, Nat.testBit_or, Nat.testBit_ldiff, Nat.testBit_shiftLeft,
          Nat.testBit_two_pow_sub_one, hiw, h1]
      · have h1 : start ≤ i := by omega
        have h3 : ¬ (i - start < stop - start) := by omega
        have h4 : am.testBit (i - start) = false :=
          Nat.testBit_lt_two_pow
            (lt_of_lt_of_le hamlt (Nat.pow_le_pow_right (by norm_num) (by omega)))
        simp [Nat.testBit_and, Nat.testBit_or, Nat.testBit_ldiff, Nat.testBit_shiftLeft,
          Nat.testBit_two_pow_sub_one, hiw, h1, h3, h4]
    · have h5 : next.testBit i = false :=
        Nat.testBit_lt_two_pow
          (lt_of_lt_of_le hn (Nat.pow_le_pow_right (by norm_num) (by omega)))
      simp [Nat.testBit_and, Nat.testBit_or, Nat.testBit_ldiff, Nat.testBit_shiftLeft,
        Nat.testBit_two_pow_sub_one, hiw, h5]
  · intro i h1 h2
    rw [ham]
    have h3 : i - start < stop - start := by omega
    have h4 : i < w := by omega
    simp [Nat.testBit_and, Nat.testBit_or, Nat.testBit_ldiff, Nat.testBit_shiftLeft,
      Nat.testBit_two_pow_sub_one, h1, h3, h4]

/-- C6: executing the compiled setter for an assignment through a bit slice
performs a read-modify-write against the signal's current `next` value:
every bit outside [start, stop) is unchanged and the bits inside are
replaced by the (masked) written value; in particular writing bits [1:3) of
a 4-bit signal whose pending next value is 0b1111 with value 0b00 yields
next value 0b1001 = 9. -/
theorem C6_slice_write (w start stop : ℕ) (next : ℕ) (arg : ℤ)
    (hss : start ≤ stop) (hsw : stop ≤ w) (hn : next < 2 ^ w) :
    (∃ r : ℕ, sliceAssignNext w start stop (next : ℤ) arg = (r : ℤ) ∧
      (∀ i : ℕ, ¬(start ≤ i ∧ i < stop) → r.testBit i = next.testBit i) ∧
      (∀ i : ℕ, start ≤ i → i < stop →
        r.testBit i =
          (Int.land arg ((2 ^ (stop - start) - 1 : ℕ) : ℤ)).toNat.testBit (i - start))) ∧
    sliceAssignNext 4 1 3 15 0 = 9 := by
  refine ⟨sliceAssignNext_spec w start stop next arg hss hsw hn, ?_⟩
  obtain ⟨r, hr, hout, hin⟩ :=
    sliceAssignNext_spec 4 1 3 15 0 (by norm_num) (by norm_num) (by norm_num)
  have hz : Int.land (0 : ℤ) ((2 ^ (3 - 1) - 1 : ℕ) : ℤ) = 0 := zero_land _
  have hr9 : r = 9 := by
    apply Nat.eq_of_testBit_eq
    intro i
    match i with
    | 0 =>
      rw [hout 0 (by omega)]
      decide
    | 1 =>
      rw [hin 1 (by omega) (by omega), hz]
      decide
    | 2 =>
      rw [hin 2 (by omega) (by omega), hz]
      decide
    | 3 =>
      rw [hout 3 (by omega)]
      decide
    | (i + 4) =>
      rw [hout (i + 4) (by omega)]
      have h16 : (16 : ℕ) ≤ 2 ^ (i + 4) := by
        calc (16 : ℕ) = 2 ^ 4 := by norm_num
        _ ≤ 2 ^ (i + 4) := Nat.pow_le_pow_right (by norm_num) (by omega)
      have h15 : (15 : ℕ) < 2 ^ (i + 4) := by omega
      have h9 : (9 : ℕ) < 2 ^ (i + 4) := by omega
      rw [Nat.testBit_lt_two_pow h15, Nat.testBit_lt_two_pow h9]
  rw [hr9] at hr
  exact_mod_cast hr

/-- C6 witness: the read-modify-write property applied at the claim's
concrete instance (width 4, slice [1:3), pending next 0b1111, written value
0b00), with the side conditions discharged by evaluation. -/
theorem C6_slice_write_witness :
    (∃ r : ℕ, sliceAssignNext 4 1 3 (15 : ℤ) 0 = (r : ℤ) ∧
      (∀ i : ℕ, ¬(1 ≤ i ∧ i < 3) → r.testBit i = (15 : ℕ).testBit i) ∧
      (∀ i : ℕ, 1 ≤ i → i < 3 →
        r.testBit i =
          (Int.land 0 ((2 ^ (3 - 1) - 1 : ℕ) : ℤ)).toNat.testBit (i - 1))) ∧
    sliceAssignNext 4 1 3 15 0 = 9 :=
  C6_slice_write 4 1 3 15 0 (by norm_num) (by norm_num) (by norm_num)
